import Mathlib

/-!
Verification of the arbitrage-detection core of the `arbi` bot
(marginal polytope, feasibility tester, Frank-Wolfe I-projection,
VWAP/slippage, opportunity assembly).

The C++ source is embedded shallowly:

* `double` values that never pass through a logarithm are modelled as
  exact rationals (every IEEE double is a rational number), so the
  polytope builder, the feasibility tester, the VWAP walk and the
  opportunity assembler are computable `ℚ` functions;
* the Frank-Wolfe projector evaluates `std::log`, so its state is
  modelled over `ℝ` with `Real.log`;
* the GLPK simplex call inside `MarginalPolytope::solveLP` is external
  library code; the projector is therefore parameterised by an abstract
  oracle `(Fin n → ℝ) → Option (Fin n → ℝ)` exactly where the source
  calls `polytope.solveLP(grad)`;
* wall-clock fields (`elapsed_ms`, `detected_at`) are not modelled.
-/

namespace Arbi

/-- The four dependency relations of `common.hpp` (`enum class Relation`). -/
inductive Relation where
  | IMPLIES
  | MUTEX
  | EXACTLY_ONE
  | INDEPENDENT
deriving DecidableEq, Repr

/-- Embeds `struct Dependency` of `common.hpp`: two market indices and a relation. -/
structure Dependency where
  market_i : Nat
  market_j : Nat
  relation : Relation
deriving DecidableEq, Repr

/-- Sparse-matrix entry, `MarginalPolytope::Triplet` of `polytope.hpp`. -/
structure Triplet where
  row : Nat
  col : Nat
  val : ℚ
deriving DecidableEq, Repr

/-- The polytope object built by `MarginalPolytope::buildConstraints`
(`polytope.hpp` private state). -/
structure Polytope where
  num_vars : Nat
  A_triplets : List Triplet
  b_upper : List ℚ
  b_lower : List ℚ
  num_constraints : Nat
  var_lb : List ℚ
  var_ub : List ℚ
deriving DecidableEq, Repr

/-- The `-1e30` sentinel `polytope.cpp` pushes for a row with no lower bound. -/
def NO_LOWER : ℚ := -1e30

/-- The `-1e29` threshold of the test `b_lower_[r] > -1e29` that decides
whether a row's lower bound is real or the sentinel. -/
def sentinelMin : ℚ := -1e29

/-- The loop body of `MarginalPolytope::buildConstraints` (`polytope.cpp`
lines 18-53): walk the dependency list with a running row counter and emit
triplets and row bounds; `INDEPENDENT` emits nothing.  Returns
`(A_triplets, b_upper, b_lower, final row counter)`. -/
def buildRows : Nat → List Dependency → List Triplet × List ℚ × List ℚ × Nat
  | row, [] => ([], [], [], row)
  | row, d :: rest =>
    match d.relation with
    | Relation.IMPLIES =>
      let r := buildRows (row + 1) rest
      (⟨row, d.market_i, 1⟩ :: ⟨row, d.market_j, -1⟩ :: r.1,
       0 :: r.2.1, NO_LOWER :: r.2.2.1, r.2.2.2)
    | Relation.MUTEX =>
      let r := buildRows (row + 1) rest
      (⟨row, d.market_i, 1⟩ :: ⟨row, d.market_j, 1⟩ :: r.1,
       1 :: r.2.1, NO_LOWER :: r.2.2.1, r.2.2.2)
    | Relation.EXACTLY_ONE =>
      let r := buildRows (row + 1) rest
      (⟨row, d.market_i, 1⟩ :: ⟨row, d.market_j, 1⟩ :: r.1,
       1 :: r.2.1, (1 : ℚ) :: r.2.2.1, r.2.2.2)
    | Relation.INDEPENDENT => buildRows row rest

/-- Embeds `MarginalPolytope::buildConstraints(num_markets, deps)`: variable bounds
`[0,1]ⁿ`, one constraint row per non-`INDEPENDENT` dependency,
`num_constraints` = the final row counter. -/
def buildConstraints (num_markets : Nat) (deps : List Dependency) : Polytope :=
  let r := buildRows 0 deps
  { num_vars := num_markets
    A_triplets := r.1
    b_upper := r.2.1
    b_lower := r.2.2.1
    num_constraints := r.2.2.2
    var_lb := List.replicate num_markets 0
    var_ub := List.replicate num_markets 1 }

/-- Embeds `FeasibilityResult` of `polytope.hpp`. -/
structure FeasibilityResult where
  feasible : Bool
  violation : ℚ
  dual : List ℚ
deriving DecidableEq, Repr

/-- The feasibility tolerance `1e-9` hard-coded in
`MarginalPolytope::checkFeasibility`. -/
def tauFeas : ℚ := 1e-9

/-- The triplet scan of `checkFeasibility` (`polytope.cpp` lines 80-86):
`row_values[t.row] += t.val * prices[t.col]`, guarded by
`t.col < prices.size()`. -/
def rowValues (P : Polytope) (prices : List ℚ) : List ℚ :=
  P.A_triplets.foldl
    (fun acc t =>
      if t.col < prices.length then
        acc.set t.row (acc.getD t.row 0 + t.val * prices.getD t.col 0)
      else acc)
    (List.replicate P.num_constraints 0)

/-- One iteration of the per-row check of `checkFeasibility`
(`polytope.cpp` lines 88-106): flag an upper-bound breach beyond `τ_feas`,
then a lower-bound breach (only when the lower bound is not the sentinel),
accumulating `violation` as a running max and writing the signed breach
into `dual[r]`. -/
def feasStep (P : Polytope) (vals : List ℚ) (st : FeasibilityResult) (r : Nat) :
    FeasibilityResult :=
  let v := vals.getD r 0
  let bu := P.b_upper.getD r 0
  let bl := P.b_lower.getD r 0
  let st1 :=
    if bu + tauFeas < v then
      { feasible := false
        violation := max st.violation (v - bu)
        dual := st.dual.set r (v - bu) }
    else st
  if sentinelMin < bl ∧ v < bl - tauFeas then
    { feasible := false
      violation := max st1.violation (bl - v)
      dual := st1.dual.set r (-(bl - v)) }
  else st1

/-- Embeds `MarginalPolytope::checkFeasibility(prices)` (`polytope.cpp` lines
65-109): starts from `(feasible := true, violation := 0, dual := 0⃗)`,
returns immediately when there are no constraints, otherwise folds
`feasStep` over the rows. -/
def checkFeasibility (P : Polytope) (prices : List ℚ) : FeasibilityResult :=
  let init : FeasibilityResult :=
    { feasible := true, violation := 0, dual := List.replicate P.num_constraints 0 }
  if P.num_constraints = 0 then init
  else (List.range P.num_constraints).foldl (feasStep P (rowValues P prices)) init

/-- Embeds `enum class Side` of `common.hpp`. -/
inductive Side where
  | BUY
  | SELL
deriving DecidableEq, Repr

/-- Embeds `struct OrderBookLevel` of `common.hpp`. -/
structure BookLevel where
  price : ℚ
  size : ℚ
deriving DecidableEq, Repr

/-- Embeds `struct OrderBook` of `common.hpp` (the `token_id` string is irrelevant
to the arithmetic and omitted). -/
structure OrderBook where
  bids : List BookLevel
  asks : List BookLevel
deriving DecidableEq, Repr

/-- Embeds `OrderBook::bestBid`: `bids.empty() ? 0.0 : bids.front().price`. -/
def bestBid (book : OrderBook) : ℚ :=
  match book.bids with
  | [] => 0
  | l :: _ => l.price

/-- Embeds `OrderBook::bestAsk`: `asks.empty() ? 1.0 : asks.front().price`. -/
def bestAsk (book : OrderBook) : ℚ :=
  match book.asks with
  | [] => 1
  | l :: _ => l.price

/-- The level walk of `ExecutionEngine::computeVWAP` (`execution.cpp` lines
23-35): fill `min(remaining, level.size)` at each level, stop when
`remaining <= 0` after a fill.  Returns `(total_cost, total_filled)`. -/
def walkBook : List BookLevel → ℚ → ℚ × ℚ
  | [], _ => (0, 0)
  | l :: ls, remaining =>
    let fill := min remaining l.size
    let rem' := remaining - fill
    if rem' ≤ 0 then (fill * l.price, fill)
    else
      let r := walkBook ls rem'
      (fill * l.price + r.1, fill + r.2)

/-- Embeds `ExecutionEngine::computeVWAP(book, side, size)` (`execution.cpp` lines
16-40): walk the asks for a BUY and the bids for a SELL; `0` on an empty
side or when nothing filled, else `total_cost / total_filled`. -/
def computeVWAP (book : OrderBook) (side : Side) (size : ℚ) : ℚ :=
  let levels := match side with
    | Side.BUY => book.asks
    | Side.SELL => book.bids
  if levels = [] then 0
  else
    let r := walkBook levels size
    if r.2 = 0 then 0 else r.1 / r.2

/-- Embeds `ExecutionEngine::estimateSlippage(book, side, size)` (`execution.cpp`
lines 45-54): `|vwap - best| / best`, with `best` the best ask for a BUY
and the best bid for a SELL, and `1` (maximum) when `best == 0`. -/
def estimateSlippage (book : OrderBook) (side : Side) (size : ℚ) : ℚ :=
  let vwap := computeVWAP book side size
  let best := match side with
    | Side.BUY => bestAsk book
    | Side.SELL => bestBid book
  if best = 0 then 1 else |vwap - best| / best

/-- The fields of the Frank-Wolfe result that the opportunity-assembly slice
of `main` consumes (`FrankWolfe::Result` of `frank_wolfe.hpp`, rational
fields only). -/
structure FWOut where
  optimal : List ℚ
  trade_vector : List ℚ
  profit : ℚ
deriving DecidableEq, Repr

/-- Embeds `struct ArbitrageOpportunity` of `common.hpp` (the wall-clock
`detected_at` is not modelled). -/
structure ArbitrageOpportunity where
  market_indices : List Nat
  current_prices : List ℚ
  optimal_prices : List ℚ
  trade_vector : List ℚ
  expected_profit : ℚ
  mispricing_pct : ℚ
deriving DecidableEq, Repr

/-- Steps 5-7 of the scan loop in `main` (`main.cpp` lines 267-306): skip
the tick when the prices are feasible, skip when the Frank-Wolfe profit is
below `cfg.min_profit_usd`, otherwise build the `ArbitrageOpportunity`
whose `market_indices` are the `i` with `|trade_vector[i]| > 1e-6`, scanned
in increasing order over the `markets.size()` indices (the price vector is
built with exactly that length). -/
def assembleOpportunity (prices : List ℚ) (fw : FWOut)
    (feas : FeasibilityResult) (min_profit : ℚ) : Option ArbitrageOpportunity :=
  if feas.feasible then none
  else if fw.profit < min_profit then none
  else some
    { market_indices :=
        (List.range prices.length).filter
          (fun i => 1e-6 < |fw.trade_vector.getD i 0|)
      current_prices := prices
      optimal_prices := fw.optimal
      trade_vector := fw.trade_vector
      expected_profit := fw.profit
      mispricing_pct := feas.violation }

/-! ### Frank-Wolfe I-projection (`frank_wolfe.cpp`), over `ℝ` -/

/-- The clamp constant `EPS = 1e-12` of `FrankWolfe::optimize`. -/
noncomputable def EPS : ℝ := 1e-12

/-- Embeds `std::max(EPS, std::min(1.0 - EPS, x))`, the componentwise clamp used
throughout `FrankWolfe::optimize`. -/
noncomputable def clampUnit (x : ℝ) : ℝ := max EPS (min (1 - EPS) x)

/-- The lambda `klAtGamma` of the exact line search (`frank_wolfe.cpp` lines
61-70): the binary KL divergence `D_KL(p ‖ clamp((1-γ)q + γv))`, summed per
component with clamped second argument. -/
noncomputable def klAtGamma {n : Nat} (p q v : Fin n → ℝ) (g : ℝ) : ℝ :=
  ∑ i, (p i * Real.log (p i / clampUnit ((1 - g) * q i + g * v i)) +
        (1 - p i) * Real.log ((1 - p i) / (1 - clampUnit ((1 - g) * q i + g * v i))))

/-- One iteration of the ternary bisection (`frank_wolfe.cpp` lines 57-76):
evaluate `klAtGamma` at the two interior thirds and discard the outer third
on the side of the larger value. -/
noncomputable def lsStep {n : Nat} (p q v : Fin n → ℝ) (st : ℝ × ℝ) : ℝ × ℝ :=
  let g1 := st.1 + (st.2 - st.1) / 3
  let g2 := st.1 + 2 * (st.2 - st.1) / 3
  if klAtGamma p q v g1 < klAtGamma p q v g2 then (st.1, g2) else (g1, st.2)

/-- The exact line search of `FrankWolfe::optimize`: 30 ternary-bisection
iterations on `[0,1]`, returning the midpoint of the final interval. -/
noncomputable def lineSearch {n : Nat} (p q v : Fin n → ℝ) : ℝ :=
  let fin := (lsStep p q v)^[30] (0, 1)
  (fin.1 + fin.2) / 2

/-- The per-component binary KL divergence used for the profit metric
(`frank_wolfe.cpp` lines 94-100): `p` is the already-clamped price vector,
the argument `q` is clamped inside. -/
noncomputable def klProfit {n : Nat} (p q : Fin n → ℝ) : ℝ :=
  ∑ i, (p i * Real.log (p i / clampUnit (q i)) +
        (1 - p i) * Real.log ((1 - p i) / (1 - clampUnit (q i))))

/-- Loop state of `FrankWolfe::optimize`: current iterate, the
`result.iterations` counter, the `result.converged` flag, and a count of
`polytope.solveLP` invocations (one per entered loop iteration — implicit
in the source, made explicit here so that claims about the number of
LP-oracle calls can be stated). -/
structure FWState (n : Nat) where
  q : Fin n → ℝ
  iterations : Nat
  converged : Bool
  lp_calls : Nat

/-- The outer loop of `FrankWolfe::optimize` (`frank_wolfe.cpp` lines
28-83), with the remaining iteration budget as fuel: set
`iterations := k+1`, compute the gradient of `D_KL(p‖q)` at the clamped
iterate, call the LP oracle (counted), stop on oracle failure, stop with
`converged := true` when the duality gap drops below the tolerance, else
line-search, update and clamp. -/
noncomputable def fwLoop {n : Nat} (oracle : (Fin n → ℝ) → Option (Fin n → ℝ))
    (p : Fin n → ℝ) (tolerance : ℝ) :
    Nat → FWState n → FWState n
  | 0, st => st
  | fuel + 1, st =>
    let grad := fun i =>
      -(p i) / clampUnit (st.q i) + (1 - p i) / (1 - clampUnit (st.q i))
    match oracle grad with
    | none =>
      { st with iterations := st.iterations + 1, lp_calls := st.lp_calls + 1 }
    | some v =>
      let gap := ∑ i, grad i * (st.q i - v i)
      if gap < tolerance then
        { st with iterations := st.iterations + 1, converged := true,
                  lp_calls := st.lp_calls + 1 }
      else
        let gamma := lineSearch p st.q v
        fwLoop oracle p tolerance fuel
          { q := fun i => clampUnit ((1 - gamma) * st.q i + gamma * v i)
            iterations := st.iterations + 1
            converged := st.converged
            lp_calls := st.lp_calls + 1 }

/-- Embeds `FrankWolfe::Result` of `frank_wolfe.hpp` (`elapsed_ms` not modelled;
`lp_calls` is the oracle-invocation count, see `FWState`). -/
structure FWResult (n : Nat) where
  optimal : Fin n → ℝ
  trade_vector : Fin n → ℝ
  profit : ℝ
  iterations : Nat
  converged : Bool
  lp_calls : Nat

/-- Embeds `FrankWolfe::optimize(prices, polytope, max_iters, tolerance)`
(`frank_wolfe.cpp` lines 8-115): clamp the prices, start the iterate at
`0.5·𝟙`, run the loop, and return `q*`, `trade_vector = q* - prices`, and
`profit = max(D_KL(p‖q*), ½‖q* - prices‖₁)`.  The
`polytope.solveLP` call is abstracted as `oracle`. -/
noncomputable def fwOptimize {n : Nat} (oracle : (Fin n → ℝ) → Option (Fin n → ℝ))
    (prices : Fin n → ℝ) (max_iters : Nat) (tolerance : ℝ) : FWResult n :=
  let p := fun i => clampUnit (prices i)
  let st := fwLoop oracle p tolerance max_iters
    { q := fun _ => 0.5, iterations := 0, converged := false, lp_calls := 0 }
  { optimal := st.q
    trade_vector := fun i => st.q i - prices i
    profit := max (klProfit p st.q) ((∑ i, |st.q i - prices i|) * 0.5)
    iterations := st.iterations
    converged := st.converged
    lp_calls := st.lp_calls }

/-! ### Spec-side description of the built constraint rows (for claim C5) -/

/-- The non-`INDEPENDENT` dependencies, in order (`INDEPENDENT` is
discarded at build time). -/
def nonIndep (deps : List Dependency) : List Dependency :=
  deps.filter (fun d =>
    match d.relation with
    | Relation.INDEPENDENT => false
    | _ => true)

/-- Spec-side content of one constraint row (the table of §4.1 of the
spec): `IMPLIES(i,j)` has `+1` at `i` and `-1` at `j`; `MUTEX(i,j)` and
`EXACTLY_ONE(i,j)` have `+1` at `i` and `+1` at `j`. -/
def specTriplets (row : Nat) (d : Dependency) : List Triplet :=
  match d.relation with
  | Relation.IMPLIES => [⟨row, d.market_i, 1⟩, ⟨row, d.market_j, -1⟩]
  | Relation.MUTEX => [⟨row, d.market_i, 1⟩, ⟨row, d.market_j, 1⟩]
  | Relation.EXACTLY_ONE => [⟨row, d.market_i, 1⟩, ⟨row, d.market_j, 1⟩]
  | Relation.INDEPENDENT => []

/-- Spec-side triplet list: rows numbered consecutively in insertion
order starting from a given row index. -/
def specRows : Nat → List Dependency → List Triplet
  | _, [] => []
  | row, d :: rest => specTriplets row d ++ specRows (row + 1) rest

/-- Spec-side row upper bound: `0` for `IMPLIES`, `1` for `MUTEX` and
`EXACTLY_ONE`. -/
def specUpper (d : Dependency) : ℚ :=
  match d.relation with
  | Relation.IMPLIES => 0
  | Relation.MUTEX => 1
  | Relation.EXACTLY_ONE => 1
  | Relation.INDEPENDENT => 0

/-- Spec-side row lower bound: `1` for `EXACTLY_ONE`, and for the one-sided
`IMPLIES`/`MUTEX` rows the no-lower-bound sentinel `-1e30`. -/
def specLower (d : Dependency) : ℚ :=
  match d.relation with
  | Relation.EXACTLY_ONE => 1
  | _ => NO_LOWER

lemma buildRows_spec (deps : List Dependency) (row : Nat) :
    buildRows row deps =
      (specRows row (nonIndep deps),
       (nonIndep deps).map specUpper,
       (nonIndep deps).map specLower,
       row + (nonIndep deps).length) := by
  induction deps generalizing row with
  | nil => simp [buildRows, nonIndep, specRows]
  | cons d rest ih =>
    cases h : d.relation <;>
      simp [buildRows, nonIndep, h, ih, specRows, specTriplets, specUpper,
        specLower, List.filter_cons] <;>
      omega

/-- Claim C5: for every market count and dependency sequence,
`buildConstraints` produces `num_constraints` equal to the number of
non-`INDEPENDENT` dependencies; its rows are numbered in insertion order,
an `IMPLIES(i,j)` row holding `+1` at `i` and `-1` at `j` with upper bound
`0` and no lower bound (the `-1e30` sentinel), a `MUTEX(i,j)` row holding
`+1` at `i` and `+1` at `j` with upper bound `1` and no lower bound, and an
`EXACTLY_ONE(i,j)` row holding `+1` at `i` and `+1` at `j` with lower and
upper bounds both `1`. -/
theorem build_polytope_rows (n : Nat) (deps : List Dependency) :
    (buildConstraints n deps).num_constraints = (nonIndep deps).length ∧
    (buildConstraints n deps).A_triplets = specRows 0 (nonIndep deps) ∧
    (buildConstraints n deps).b_upper = (nonIndep deps).map specUpper ∧
    (buildConstraints n deps).b_lower = (nonIndep deps).map specLower := by
  simp [buildConstraints, buildRows_spec]

/-! ### Frank-Wolfe invariants (claims C1, C3, C10) -/

lemma clampUnit_mem (x : ℝ) : EPS ≤ clampUnit x ∧ clampUnit x ≤ 1 - EPS := by
  refine ⟨le_max_left _ _, max_le ?_ (min_le_left _ _)⟩
  norm_num [EPS]

lemma fwLoop_q_mem {n : Nat} (oracle : (Fin n → ℝ) → Option (Fin n → ℝ))
    (p : Fin n → ℝ) (tol : ℝ) (fuel : Nat) (st : FWState n)
    (h : ∀ i, EPS ≤ st.q i ∧ st.q i ≤ 1 - EPS) :
    ∀ i, EPS ≤ (fwLoop oracle p tol fuel st).q i ∧
      (fwLoop oracle p tol fuel st).q i ≤ 1 - EPS := by
  induction fuel generalizing st with
  | zero => simpa [fwLoop] using h
  | succ fuel ih =>
    simp only [fwLoop]
    split
    · simpa using h
    · split
      · simpa using h
      · exact ih _ (fun i => clampUnit_mem _)

/-- Claim C10: for every input price vector (in `[0,1]ⁿ` or not), every
LP oracle and every iteration budget, each component of the `optimal`
vector returned by `optimize` lies in `[1e-12, 1 - 1e-12]` (`EPS = 1e-12`):
the iterate starts at `0.5` everywhere and is clamped after every update,
including on early exit through LP failure or convergence. -/
theorem fw_optimal_clamped (n : Nat) (oracle : (Fin n → ℝ) → Option (Fin n → ℝ))
    (prices : Fin n → ℝ) (max_iters : Nat) (tol : ℝ) (i : Fin n) :
    EPS ≤ (fwOptimize oracle prices max_iters tol).optimal i ∧
      (fwOptimize oracle prices max_iters tol).optimal i ≤ 1 - EPS := by
  have h := fwLoop_q_mem oracle (fun i => clampUnit (prices i)) tol max_iters
    ⟨fun _ => 0.5, 0, false, 0⟩ (fun i => by norm_num [EPS])
  simpa [fwOptimize] using h i

/-- Claim C3: the `profit` field returned by `optimize` is
`max(D_KL(p‖q*), ½·‖q* - p‖₁)` — the binary KL divergence summed over
components with clamped arguments (`klProfit` applied to the clamped price
vector and the final iterate) versus half the L1 norm of
`trade_vector = q* - prices` — and this profit is nonnegative. -/
theorem fw_profit_formula (n : Nat) (oracle : (Fin n → ℝ) → Option (Fin n → ℝ))
    (prices : Fin n → ℝ) (max_iters : Nat) (tol : ℝ) :
    (fwOptimize oracle prices max_iters tol).profit =
      max (klProfit (fun i => clampUnit (prices i))
             ((fwOptimize oracle prices max_iters tol).optimal))
          ((∑ i, |(fwOptimize oracle prices max_iters tol).optimal i - prices i|) * 0.5) ∧
    (fwOptimize oracle prices max_iters tol).trade_vector =
      (fun i => (fwOptimize oracle prices max_iters tol).optimal i - prices i) ∧
    0 ≤ (fwOptimize oracle prices max_iters tol).profit := by
  refine ⟨rfl, rfl, ?_⟩
  have h : (0:ℝ) ≤
      (∑ i, |(fwOptimize oracle prices max_iters tol).optimal i - prices i|) * 0.5 := by
    positivity
  calc (0:ℝ) ≤ _ := h
    _ ≤ _ := le_max_right _ _

lemma fwLoop_calls_mono {n : Nat} (oracle : (Fin n → ℝ) → Option (Fin n → ℝ))
    (p : Fin n → ℝ) (tol : ℝ) (fuel : Nat) (st : FWState n) :
    st.lp_calls ≤ (fwLoop oracle p tol fuel st).lp_calls := by
  induction fuel generalizing st with
  | zero => simp [fwLoop]
  | succ fuel ih =>
    simp only [fwLoop]
    split
    · simp
    · split
      · simp
      · exact le_trans (by simp) (ih _)

lemma fwLoop_enters {n : Nat} (oracle : (Fin n → ℝ) → Option (Fin n → ℝ))
    (p : Fin n → ℝ) (tol : ℝ) (fuel : Nat) (st : FWState n) :
    st.lp_calls + 1 ≤ (fwLoop oracle p tol (fuel + 1) st).lp_calls := by
  simp only [fwLoop]
  split
  · simp
  · split
    · simp
    · exact le_trans (by simp) (fwLoop_calls_mono _ _ _ _ _)

lemma fwLoop_noneOracle {n : Nat} (oracle : (Fin n → ℝ) → Option (Fin n → ℝ))
    (p : Fin n → ℝ) (tol : ℝ) (fuel : Nat) (st : FWState n)
    (hF : ∀ g, oracle g = none) :
    fwLoop oracle p tol (fuel + 1) st =
      { st with iterations := st.iterations + 1, lp_calls := st.lp_calls + 1 } := by
  simp [fwLoop, hF]

/-- Claim C1 (amended): with a dependency set that is empty or all
`INDEPENDENT`, the polytope has zero constraints and `check_feasibility`
reports feasible with violation `0` for every price vector; `optimize`
with `max_iters ≥ 1` always performs at least one LP-oracle call (never
zero), and when the LP oracle fails on that first call it performs exactly
one call and returns `q* = (0.5, …, 0.5)`. -/
theorem zero_constraint_behavior
    (nm : Nat) (deps : List Dependency) (prices : List ℚ) (n : Nat)
    (oracle oracleF : (Fin n → ℝ) → Option (Fin n → ℝ))
    (rp : Fin n → ℝ) (max_iters : Nat) (tol : ℝ)
    (hdeps : ∀ d ∈ deps, d.relation = Relation.INDEPENDENT)
    (hiters : 1 ≤ max_iters)
    (hF : ∀ g, oracleF g = none) :
    (buildConstraints nm deps).num_constraints = 0 ∧
    (checkFeasibility (buildConstraints nm deps) prices).feasible = true ∧
    (checkFeasibility (buildConstraints nm deps) prices).violation = 0 ∧
    1 ≤ (fwOptimize oracle rp max_iters tol).lp_calls ∧
    (fwOptimize oracleF rp max_iters tol).lp_calls = 1 ∧
    (fwOptimize oracleF rp max_iters tol).optimal = (fun _ => 0.5) := by
  obtain ⟨k, rfl⟩ : ∃ k, max_iters = k + 1 := ⟨max_iters - 1, by omega⟩
  have hni : nonIndep deps = [] := by
    refine List.filter_eq_nil_iff.mpr (fun d hd => ?_)
    simp [hdeps d hd]
  have hm0 : (buildConstraints nm deps).num_constraints = 0 := by
    simp [buildConstraints, buildRows_spec, hni]
  refine ⟨hm0, ?_, ?_, ?_, ?_, ?_⟩
  · simp [checkFeasibility, hm0]
  · simp [checkFeasibility, hm0]
  · simpa [fwOptimize] using
      fwLoop_enters oracle (fun i => clampUnit (rp i)) tol k
        ⟨fun _ => 0.5, 0, false, 0⟩
  · simp [fwOptimize, fwLoop_noneOracle _ _ _ _ _ hF]
  · simp [fwOptimize, fwLoop_noneOracle _ _ _ _ _ hF]

/-- Witness for claim C1's theorem at a concrete input: three markets, one
`INDEPENDENT` dependency, a one-dimensional projector run with
`max_iters = 150`, tolerance `1e-8` and a failing LP oracle. -/
theorem zero_constraint_behavior_witness :
    (buildConstraints 3 [⟨0, 1, Relation.INDEPENDENT⟩]).num_constraints = 0 ∧
    (checkFeasibility (buildConstraints 3 [⟨0, 1, Relation.INDEPENDENT⟩])
      [7/10, 3/5, 1/2]).feasible = true ∧
    (checkFeasibility (buildConstraints 3 [⟨0, 1, Relation.INDEPENDENT⟩])
      [7/10, 3/5, 1/2]).violation = 0 ∧
    1 ≤ (@fwOptimize 1 (fun _ => none) (fun _ => 9/10) 150 (1e-8)).lp_calls ∧
    (@fwOptimize 1 (fun _ => none) (fun _ => 9/10) 150 (1e-8)).lp_calls = 1 ∧
    (@fwOptimize 1 (fun _ => none) (fun _ => 9/10) 150 (1e-8)).optimal = (fun _ => 0.5) :=
  zero_constraint_behavior 3 [⟨0, 1, Relation.INDEPENDENT⟩] [7/10, 3/5, 1/2] 1
    (fun _ => none) (fun _ => none) (fun _ => 9/10) 150 (1e-8)
    (by intro d hd; simp at hd; simp [hd]) (by norm_num) (fun _ => rfl)

/-- Claim C1 counterexample: the claim as stated says `optimize` makes zero
LP-oracle calls on a zero-constraint problem, but the loop body invokes the
oracle unconditionally in its first iteration; here (one market,
`max_iters = 150`, the oracle reporting failure as GLPK would on a
non-optimal basis) the call count is `1`, not `0`. -/
theorem zero_constraint_cex :
    ¬ ((@fwOptimize 1 (fun _ => none) (fun _ => 9/10) 150 (1e-8)).lp_calls = 0) := by
  have h : (150 : Nat) = 149 + 1 := rfl
  rw [h]
  simp [fwOptimize, fwLoop_noneOracle _ _ _ _ _ (fun _ => rfl)]

/-! ### Feasibility on short price vectors (claim C9) -/

lemma set_getD_self (l : List ℚ) (r : Nat) : l.set r (l.getD r 0) = l := by
  rcases Nat.lt_or_ge r l.length with hr | hr
  · apply List.ext_getElem?
    intro j
    rcases eq_or_ne r j with h | hne
    · subst h
      simp [List.getElem?_set_self hr, List.getD, List.getElem?_eq_getElem hr]
    · simp [List.getElem?_set_ne hne]
  · exact List.set_eq_of_length_le hr

lemma rowValues_pad (P : Polytope) (p : List ℚ) (k : Nat) :
    rowValues P (p ++ List.replicate k 0) = rowValues P p := by
  unfold rowValues
  apply List.foldl_ext
  intro acc t ht
  by_cases h1 : t.col < p.length
  · have h2 : t.col < (p ++ List.replicate k (0:ℚ)).length := by
      rw [List.length_append]
      omega
    rw [if_pos h1, if_pos h2, List.getD_append _ _ _ _ h1]
  · by_cases h2 : t.col < (p ++ List.replicate k (0:ℚ)).length
    · have hge : p.length ≤ t.col := Nat.not_lt.mp h1
      have hik : t.col - p.length < k := by
        rw [List.length_append, List.length_replicate] at h2
        omega
      have hrep : (List.replicate k (0:ℚ)).getD (t.col - p.length) 0 = 0 := by
        simp [List.getD, List.getElem?_replicate, hik]
      rw [if_neg h1, if_pos h2, List.getD_append_right _ _ _ _ hge, hrep, mul_zero,
        add_zero, set_getD_self]
    · rw [if_neg h1, if_neg h2]

/-- Claim C9: `checkFeasibility` is total for every price-vector length.
The triplet scan guards each access with `t.col < prices.size()`, so a
triplet whose column is beyond the end of the price vector contributes
nothing to its row value, and a short price vector is evaluated exactly as
if the missing components were `0`: appending any number of zero components
leaves the whole result (feasible flag, violation, dual) unchanged.  (In
this embedding totality is by construction: `rowValues` reads out-of-range
positions through `getD`, which the guard makes unreachable, mirroring the
absence of out-of-bounds accesses in the source.) -/
theorem checkFeasibility_short_prices (P : Polytope) (p : List ℚ) (k : Nat) :
    checkFeasibility P (p ++ List.replicate k 0) = checkFeasibility P p := by
  unfold checkFeasibility
  rw [rowValues_pad]

/-! ### Opportunity assembly (claim C2) -/

/-- Claim C2 (amended): the scan loop produces an `ArbitrageOpportunity`
iff the feasibility check failed **and** `fw_result.profit` is at least
`cfg.min_profit_usd` (default `0.50`) — not `profit > 0`, and with no
condition on the trade vector.  When a record is produced, its
`market_indices` are exactly the indices `i` (below the market count, which
is the price vector's length) with `|trade_vector_i| > 1e-6`, listed in
ascending order. -/
theorem opportunity_assembly (prices : List ℚ) (fw : FWOut)
    (feas : FeasibilityResult) (minp : ℚ) :
    ((assembleOpportunity prices fw feas minp).isSome ↔
      feas.feasible = false ∧ minp ≤ fw.profit) ∧
    ∀ opp, assembleOpportunity prices fw feas minp = some opp →
      opp.market_indices =
        (List.range prices.length).filter
          (fun i => 1e-6 < |fw.trade_vector.getD i 0|) ∧
      opp.market_indices.Pairwise (· < ·) := by
  constructor
  · unfold assembleOpportunity
    rcases hf : feas.feasible with _ | _
    · rcases lt_or_ge fw.profit minp with hp | hp
      · simp [hf, hp, not_le.mpr hp]
      · simp [hf, hp, not_lt.mpr hp]
    · simp [hf]
  · intro opp hopp
    unfold assembleOpportunity at hopp
    rcases hf : feas.feasible with _ | _ <;> rw [hf] at hopp
    · rcases lt_or_ge fw.profit minp with hp | hp
      · rw [if_neg (by simp), if_pos hp] at hopp
        exact absurd hopp (by simp)
      · rw [if_neg (by simp), if_neg (not_lt.mpr hp)] at hopp
        have h := (Option.some.injEq _ _).mp hopp.symm
        subst h
        refine ⟨rfl, ?_⟩
        exact List.Pairwise.filter _ (List.pairwise_lt_range _)
    · exact absurd hopp (by simp)

/-- Witness for claim C2's theorem at a concrete input: one market, price
`0.7`, an infeasible verdict with violation `0.3`, a Frank-Wolfe result
with profit `0.6` and trade `-0.2`, and the default profit floor `0.5`;
the opportunity is produced and its `market_indices` is `[0]`. -/
theorem opportunity_assembly_witness :
    ((assembleOpportunity [7/10] ⟨[1/2], [-1/5], 3/5⟩ ⟨false, 3/10, [3/10]⟩
        (1/2)).isSome ↔
      (FeasibilityResult.mk false (3/10) [3/10]).feasible = false ∧
      (1/2 : ℚ) ≤ (FWOut.mk [1/2] [-1/5] (3/5)).profit) ∧
    ∀ opp, assembleOpportunity [7/10] ⟨[1/2], [-1/5], 3/5⟩
        ⟨false, 3/10, [3/10]⟩ (1/2) = some opp →
      opp.market_indices =
        (List.range ([(7:ℚ)/10]).length).filter
          (fun i => 1e-6 < |([(-1:ℚ)/5]).getD i 0|) ∧
      opp.market_indices.Pairwise (· < ·) :=
  opportunity_assembly [7/10] ⟨[1/2], [-1/5], 3/5⟩ ⟨false, 3/10, [3/10]⟩ (1/2)

/-- Claim C2 counterexample: the claim as stated says a record is produced
iff `profit > 0` and some `|trade_vector_i| > 1e-6`; here `profit = 0.25 > 0`
and `|trade_vector_0| = 0.2 > 1e-6`, the prices are infeasible, yet the
scan loop produces nothing because `0.25` is below the `0.50` profit
floor. -/
theorem opportunity_assembly_cex :
    (0 : ℚ) < (FWOut.mk [1/2] [-1/5] (1/4)).profit ∧
    (1e-6 : ℚ) < |(FWOut.mk [1/2] [-1/5] (1/4)).trade_vector.getD 0 0| ∧
    (FeasibilityResult.mk false (3/10) [3/10]).feasible = false ∧
    assembleOpportunity [7/10] ⟨[1/2], [-1/5], 1/4⟩ ⟨false, 3/10, [3/10]⟩
      (1/2) = none := by
  refine ⟨by norm_num, by norm_num [abs], rfl, ?_⟩
  norm_num [assembleOpportunity]

/-! ### Feasibility characterization (claim C4) -/

/-- Spec-side: row `r`'s accumulated value lies within its
tolerance-widened bounds, the lower bound checked only when it is not the
`-1e30` sentinel (the `-1e29` test of the source). -/
def rowOk (P : Polytope) (vals : List ℚ) (r : Nat) : Prop :=
  vals.getD r 0 ≤ P.b_upper.getD r 0 + tauFeas ∧
  (sentinelMin < P.b_lower.getD r 0 →
    P.b_lower.getD r 0 - tauFeas ≤ vals.getD r 0)

/-- Spec-side: row `r`'s breach magnitude — the slack past whichever bound
the row value crossed (beyond `τ_feas`), `0` when none. -/
def rowBreach (P : Polytope) (vals : List ℚ) (r : Nat) : ℚ :=
  max
    (if P.b_upper.getD r 0 + tauFeas < vals.getD r 0 then
      vals.getD r 0 - P.b_upper.getD r 0 else 0)
    (if sentinelMin < P.b_lower.getD r 0 ∧
        vals.getD r 0 < P.b_lower.getD r 0 - tauFeas then
      P.b_lower.getD r 0 - vals.getD r 0 else 0)

/-- The per-row fold of `checkFeasibility`, cut off after the first `m`
rows (the source folds all `num_constraints` rows). -/
def feasFold (P : Polytope) (vals : List ℚ) (m : Nat) : FeasibilityResult :=
  (List.range m).foldl (feasStep P vals)
    ⟨true, 0, List.replicate P.num_constraints 0⟩

/-- The running maximum of the first `m` row breaches. -/
def breachFold (P : Polytope) (vals : List ℚ) (m : Nat) : ℚ :=
  (List.range m).foldl (fun a r => max a (rowBreach P vals r)) 0

lemma checkFeasibility_eq_feasFold (P : Polytope) (prices : List ℚ) :
    checkFeasibility P prices =
      feasFold P (rowValues P prices) P.num_constraints := by
  unfold checkFeasibility feasFold
  split
  · rename_i h
    simp [h]
  · rfl

lemma range_foldl_succ {α : Type} (f : α → Nat → α) (a : α) (m : Nat) :
    (List.range (m + 1)).foldl f a = f ((List.range m).foldl f a) m := by
  rw [List.range_succ, List.foldl_append, List.foldl_cons, List.foldl_nil]

lemma getD_set_self' (l : List ℚ) (m : Nat) (a : ℚ) (h : m < l.length) :
    (l.set m a).getD m 0 = a := by
  simp [List.getD, List.getElem?_set_self h]

lemma getD_set_ne' (l : List ℚ) (m r : Nat) (a : ℚ) (h : m ≠ r) :
    (l.set m a).getD r 0 = l.getD r 0 := by
  simp [List.getD, List.getElem?_set_ne h]

lemma breachFold_nonneg (P : Polytope) (vals : List ℚ) (m : Nat) :
    0 ≤ breachFold P vals m := by
  induction m with
  | zero => simp [breachFold]
  | succ m ih =>
    unfold breachFold at ih ⊢
    rw [range_foldl_succ]
    exact le_trans ih (le_max_left _ _)

lemma breachFold_ge (P : Polytope) (vals : List ℚ) (m r : Nat) (h : r < m) :
    rowBreach P vals r ≤ breachFold P vals m := by
  induction m with
  | zero => omega
  | succ m ih =>
    unfold breachFold at ih ⊢
    rw [range_foldl_succ]
    rcases Nat.lt_or_ge r m with hr | hr
    · exact le_trans (ih hr) (le_max_left _ _)
    · have : r = m := by omega
      subst this
      exact le_max_right _ _

lemma rowBreach_eq_zero (P : Polytope) (vals : List ℚ) (r : Nat)
    (h : rowOk P vals r) : rowBreach P vals r = 0 := by
  obtain ⟨h1, h2⟩ := h
  unfold rowBreach
  rw [if_neg (not_lt.mpr h1), if_neg ?_]
  · simp
  · rintro ⟨hs, hv⟩
    exact absurd (h2 hs) (not_le.mpr hv)

lemma rowBreach_pos (P : Polytope) (vals : List ℚ) (r : Nat)
    (h : ¬ rowOk P vals r) : 0 < rowBreach P vals r := by
  unfold rowOk at h
  push_neg at h
  unfold rowBreach
  by_cases h1 : P.b_upper.getD r 0 + tauFeas < vals.getD r 0
  · refine lt_of_lt_of_le ?_ (le_max_left _ _)
    rw [if_pos h1]
    have ht : (0:ℚ) < tauFeas := by norm_num [tauFeas]
    linarith
  · obtain ⟨hs, hv⟩ := h (not_lt.mp h1)
    refine lt_of_lt_of_le ?_ (le_max_right _ _)
    rw [if_pos ⟨hs, hv⟩]
    have ht : (0:ℚ) < tauFeas := by norm_num [tauFeas]
    linarith

lemma breachFold_zero (P : Polytope) (vals : List ℚ) (m : Nat)
    (h : ∀ r < m, rowOk P vals r) : breachFold P vals m = 0 := by
  induction m with
  | zero => simp [breachFold]
  | succ m ih
  =>
    unfold breachFold at ih ⊢
    rw [range_foldl_succ, ih (fun r hr => h r (by omega)),
      rowBreach_eq_zero P vals m (h m (by omega))]
    simp

lemma breachFold_succ (P : Polytope) (vals : List ℚ) (m : Nat) :
    breachFold P vals (m + 1) =
      max (breachFold P vals m) (rowBreach P vals m) := by
  unfold breachFold
  rw [range_foldl_succ]

lemma feasFold_spec (P : Polytope) (vals : List ℚ) (m : Nat)
    (hm : m ≤ P.num_constraints) :
    ((feasFold P vals m).feasible = true ↔ ∀ r < m, rowOk P vals r) ∧
    (feasFold P vals m).violation = breachFold P vals m ∧
    (feasFold P vals m).dual.length = P.num_constraints ∧
    (∀ r < m,
      ((sentinelMin < P.b_lower.getD r 0 ∧
          vals.getD r 0 < P.b_lower.getD r 0 - tauFeas) →
        (feasFold P vals m).dual.getD r 0 =
          -(P.b_lower.getD r 0 - vals.getD r 0)) ∧
      (¬(sentinelMin < P.b_lower.getD r 0 ∧
          vals.getD r 0 < P.b_lower.getD r 0 - tauFeas) →
        P.b_upper.getD r 0 + tauFeas < vals.getD r 0 →
        (feasFold P vals m).dual.getD r 0 =
          vals.getD r 0 - P.b_upper.getD r 0)) := by
  induction m with
  | zero =>
    refine ⟨by simp [feasFold], by simp [feasFold, breachFold], ?_, ?_⟩
    · simp [feasFold]
    · intro r hr
      omega
  | succ m ih =>
    obtain ⟨ihA, ihB, ihC, ihD⟩ := ih (by omega)
    have hstep : feasFold P vals (m + 1) =
        feasStep P vals (feasFold P vals m) m := by
      unfold feasFold
      exact range_foldl_succ _ _ m
    have hmM : m < P.num_constraints := by omega
    have ht : (0:ℚ) < tauFeas := by norm_num [tauFeas]
    by_cases hu : P.b_upper.getD m 0 + tauFeas < vals.getD m 0 <;>
      by_cases hl : sentinelMin < P.b_lower.getD m 0 ∧
        vals.getD m 0 < P.b_lower.getD m 0 - tauFeas
    · -- upper and lower both crossed
      have hrec : feasStep P vals (feasFold P vals m) m =
          ⟨false,
           max (max (feasFold P vals m).violation
             (vals.getD m 0 - P.b_upper.getD m 0))
             (P.b_lower.getD m 0 - vals.getD m 0),
           ((feasFold P vals m).dual.set m
             (vals.getD m 0 - P.b_upper.getD m 0)).set m
             (-(P.b_lower.getD m 0 - vals.getD m 0))⟩ := by
        simp only [feasStep]
        rw [if_pos hu, if_pos hl]
      rw [hstep, hrec]
      refine ⟨?_, ?_, ?_, ?_⟩
      · simp only [Bool.false_eq_true, false_iff]
        intro hall
        obtain ⟨h1, _⟩ := hall m (by omega)
        exact absurd h1 (not_le.mpr hu)
      · have hb : rowBreach P vals m =
            max (vals.getD m 0 - P.b_upper.getD m 0)
              (P.b_lower.getD m 0 - vals.getD m 0) := by
          unfold rowBreach
          rw [if_pos hu, if_pos hl]
        rw [breachFold_succ, ← ihB, hb]
        exact max_assoc _ _ _
      · simp [List.length_set, ihC]
      · intro r hr
        rcases Nat.lt_or_ge r m with hrm | hrm
        · have hne : m ≠ r := by omega
          simp only [getD_set_ne' _ _ _ _ hne]
          exact ihD r hrm
        · have hrm' : r = m := by omega
          subst hrm'
          have hlen : r < ((feasFold P vals r).dual.set r
              (vals.getD r 0 - P.b_upper.getD r 0)).length := by
            rw [List.length_set, ihC]
            exact hmM
          constructor
          · intro _
            exact getD_set_self' _ _ _ hlen
          · intro hnl
            exact absurd hl hnl
    · -- only the upper bound crossed
      have hrec : feasStep P vals (feasFold P vals m) m =
          ⟨false,
           max (feasFold P vals m).violation
             (vals.getD m 0 - P.b_upper.getD m 0),
           (feasFold P vals m).dual.set m
             (vals.getD m 0 - P.b_upper.getD m 0)⟩ := by
        simp only [feasStep]
        rw [if_pos hu, if_neg hl]
      rw [hstep, hrec]
      refine ⟨?_, ?_, ?_, ?_⟩
      · simp only [Bool.false_eq_true, false_iff]
        intro hall
        obtain ⟨h1, _⟩ := hall m (by omega)
        exact absurd h1 (not_le.mpr hu)
      · have hb : rowBreach P vals m =
            vals.getD m 0 - P.b_upper.getD m 0 := by
          unfold rowBreach
          rw [if_pos hu, if_neg hl, max_eq_left (le_of_lt (by linarith))]
        rw [breachFold_succ, ← ihB, hb]
      · simp [List.length_set, ihC]
      · intro r hr
        rcases Nat.lt_or_ge r m with hrm | hrm
        · have hne : m ≠ r := by omega
          simp only [getD_set_ne' _ _ _ _ hne]
          exact ihD r hrm
        · have hrm' : r = m := by omega
          subst hrm'
          have hlen : r < (feasFold P vals r).dual.length := by
            rw [ihC]
            exact hmM
          constructor
          · intro hc
            exact absurd hc hl
          · intro _ _
            exact getD_set_self' _ _ _ hlen
    · -- only the lower bound crossed
      have hrec : feasStep P vals (feasFold P vals m) m =
          ⟨false,
           max (feasFold P vals m).violation
             (P.b_lower.getD m 0 - vals.getD m 0),
           (feasFold P vals m).dual.set m
             (-(P.b_lower.getD m 0 - vals.getD m 0))⟩ := by
        simp only [feasStep]
        rw [if_neg hu, if_pos hl]
      rw [hstep, hrec]
      obtain ⟨hs, hv⟩ := hl
      refine ⟨?_, ?_, ?_, ?_⟩
      · simp only [Bool.false_eq_true, false_iff]
        intro hall
        obtain ⟨_, h2⟩ := hall m (by omega)
        exact absurd (h2 hs) (not_le.mpr hv)
      · have hb : rowBreach P vals m =
            P.b_lower.getD m 0 - vals.getD m 0 := by
          unfold rowBreach
          rw [if_neg hu, if_pos ⟨hs, hv⟩,
            max_eq_right (le_of_lt (by linarith))]
        rw [breachFold_succ, ← ihB, hb]
      · simp [List.length_set, ihC]
      · intro r hr
        rcases Nat.lt_or_ge r m with hrm | hrm
        · have hne : m ≠ r := by omega
          simp only [getD_set_ne' _ _ _ _ hne]
          exact ihD r hrm
        · have hrm' : r = m := by omega
          subst hrm'
          have hlen : r < (feasFold P vals r).dual.length := by
            rw [ihC]
            exact hmM
          constructor
          · intro _
            exact getD_set_self' _ _ _ hlen
          · intro hnl
            exact absurd ⟨hs, hv⟩ hnl
    · -- neither bound crossed
      have hrec : feasStep P vals (feasFold P vals m) m =
          feasFold P vals m := by
        simp only [feasStep]
        rw [if_neg hu, if_neg hl]
      rw [hstep, hrec]
      refine ⟨?_, ?_, ihC, ?_⟩
      · rw [ihA]
        constructor
        · intro hall r hr
          rcases Nat.lt_or_ge r m with hrm | hrm
          · exact hall r hrm
          · have hrm' : r = m := by omega
            subst hrm'
            refine ⟨not_lt.mp hu, fun hs => ?_⟩
            by_contra hlt
            exact hl ⟨hs, not_le.mp hlt⟩
        · intro hall r hr
          exact hall r (by omega)
      · have hb : rowBreach P vals m = 0 := by
          unfold rowBreach
          rw [if_neg hu, if_neg hl]
          exact max_self 0
        rw [breachFold_succ, hb, max_eq_left (breachFold_nonneg P vals m)]
        exact ihB
      · intro r hr
        rcases Nat.lt_or_ge r m with hrm | hrm
        · exact ihD r hrm
        · have hrm' : r = m := by omega
          subst hrm'
          constructor
          · intro hc
            exact absurd hc hl
          · intro _ hc
            exact absurd hc hu

lemma specBounds_le (ds : List Dependency) (r : Nat) :
    (ds.map specLower).getD r 0 ≤ (ds.map specUpper).getD r 0 := by
  induction ds generalizing r with
  | nil => simp
  | cons d rest ih =>
    cases r with
    | zero =>
      cases h : d.relation <;>
        simp [specLower, specUpper, h, NO_LOWER] <;> norm_num
    | succ r => simpa using ih r

/-- Claim C4: on a built polytope, for every price vector,
`checkFeasibility` reports feasible exactly when every constraint row value
`A·p` lies within `[b_l - τ_feas, b_u + τ_feas]` with `τ_feas = 1e-9` (the
lower check applying only to rows whose lower bound is not the `-∞`
sentinel `-1e30`, per `rowOk`); the `violation` field is the maximum breach
over the rows (`breachFold`, `0` when feasible, so feasible ↔ violation
= 0); and `dual[r]` equals the breach and is positive when row `r` crosses
its upper bound, and equals minus the breach and is negative when it
crosses its lower bound. -/
theorem feasibility_characterization (n : Nat) (deps : List Dependency)
    (prices : List ℚ) :
    ((checkFeasibility (buildConstraints n deps) prices).feasible = true ↔
      ∀ r < (buildConstraints n deps).num_constraints,
        rowOk (buildConstraints n deps)
          (rowValues (buildConstraints n deps) prices) r) ∧
    ((checkFeasibility (buildConstraints n deps) prices).feasible = true ↔
      (checkFeasibility (buildConstraints n deps) prices).violation = 0) ∧
    (checkFeasibility (buildConstraints n deps) prices).violation =
      breachFold (buildConstraints n deps)
        (rowValues (buildConstraints n deps) prices)
        (buildConstraints n deps).num_constraints ∧
    (∀ r < (buildConstraints n deps).num_constraints,
      ((buildConstraints n deps).b_upper.getD r 0 + tauFeas <
          (rowValues (buildConstraints n deps) prices).getD r 0 →
        (checkFeasibility (buildConstraints n deps) prices).dual.getD r 0 =
          (rowValues (buildConstraints n deps) prices).getD r 0 -
            (buildConstraints n deps).b_upper.getD r 0 ∧
        0 < (checkFeasibility (buildConstraints n deps) prices).dual.getD r 0) ∧
      (sentinelMin < (buildConstraints n deps).b_lower.getD r 0 ∧
          (rowValues (buildConstraints n deps) prices).getD r 0 <
            (buildConstraints n deps).b_lower.getD r 0 - tauFeas →
        (checkFeasibility (buildConstraints n deps) prices).dual.getD r 0 =
          -((buildConstraints n deps).b_lower.getD r 0 -
            (rowValues (buildConstraints n deps) prices).getD r 0) ∧
        (checkFeasibility (buildConstraints n deps) prices).dual.getD r 0 < 0)) := by
  set P := buildConstraints n deps with hP
  set vals := rowValues P prices with hvals
  have hbl : P.b_lower = (nonIndep deps).map specLower := by
    rw [hP]
    simp [buildConstraints, buildRows_spec]
  have hbu : P.b_upper = (nonIndep deps).map specUpper := by
    rw [hP]
    simp [buildConstraints, buildRows_spec]
  have hlu : ∀ r, P.b_lower.getD r 0 ≤ P.b_upper.getD r 0 := by
    intro r
    rw [hbl, hbu]
    exact specBounds_le _ r
  have ht : (0:ℚ) < tauFeas := by norm_num [tauFeas]
  have hck := checkFeasibility_eq_feasFold P prices
  obtain ⟨hA, hB, hC, hD⟩ := feasFold_spec P vals P.num_constraints (le_refl _)
  rw [hck]
  refine ⟨hA, ?_, hB, ?_⟩
  · constructor
    · intro hf
      rw [hB, breachFold_zero P vals _ (hA.mp hf)]
    · intro hv0
      by_contra hf
      have hf' : ¬ ∀ r < P.num_constraints, rowOk P vals r :=
        fun h => hf (hA.mpr h)
      push_neg at hf'
      obtain ⟨r, hr, hok⟩ := hf'
      have h1 := rowBreach_pos P vals r hok
      have h2 := breachFold_ge P vals _ r hr
      rw [hB] at hv0
      linarith
  · intro r hr
    constructor
    · intro hu
      have hnl : ¬(sentinelMin < P.b_lower.getD r 0 ∧
          vals.getD r 0 < P.b_lower.getD r 0 - tauFeas) := by
        rintro ⟨_, hv⟩
        have := hlu r
        linarith
      have heq := (hD r hr).2 hnl hu
      exact ⟨heq, by rw [heq]; linarith⟩
    · intro hl
      have heq := (hD r hr).1 hl
      refine ⟨heq, ?_⟩
      rw [heq]
      obtain ⟨_, hv⟩ := hl
      linarith

/-! ### VWAP monotonicity and top-of-book behaviour (claims C7, C8) -/

lemma walkBook_break (l : BookLevel) (ls : List BookLevel) (s : ℚ)
    (h : s ≤ l.size) : walkBook (l :: ls) s = (s * l.price, s) := by
  simp [walkBook, min_eq_left h]

lemma walkBook_deep (l : BookLevel) (ls : List BookLevel) (s : ℚ)
    (h : l.size < s) :
    walkBook (l :: ls) s =
      (l.size * l.price + (walkBook ls (s - l.size)).1,
       l.size + (walkBook ls (s - l.size)).2) := by
  have hmin : min s l.size = l.size := min_eq_right (le_of_lt h)
  have hrem : ¬ (s - l.size ≤ 0) := by
    intro hc
    linarith
  simp [walkBook, hmin, hrem]

lemma walkBook_zero (L : List BookLevel)
    (hsz : ∀ l ∈ L, 0 ≤ l.size) : walkBook L 0 = (0, 0) := by
  cases L with
  | nil => rfl
  | cons l ls =>
    have hz : 0 ≤ l.size := hsz l (by simp)
    rw [walkBook_break l ls 0 hz]
    simp

lemma walkBook_incr (L : List BookLevel) : ∀ (lb s₁ s₂ : ℚ),
    (∀ l ∈ L, 0 ≤ l.size) → (∀ l ∈ L, lb ≤ l.price) →
    0 ≤ s₁ → s₁ ≤ s₂ →
    (walkBook L s₁).2 ≤ (walkBook L s₂).2 ∧
    lb * ((walkBook L s₂).2 - (walkBook L s₁).2) ≤
      (walkBook L s₂).1 - (walkBook L s₁).1 := by
  induction L with
  | nil =>
    intro lb s₁ s₂ _ _ _ _
    simp [walkBook]
  | cons l ls ih =>
    intro lb s₁ s₂ hsz hpr h0 h12
    have hz : 0 ≤ l.size := hsz l (by simp)
    have hp : lb ≤ l.price := hpr l (by simp)
    have hsz' : ∀ x ∈ ls, 0 ≤ x.size := fun x hx => hsz x (by simp [hx])
    have hpr' : ∀ x ∈ ls, lb ≤ x.price := fun x hx => hpr x (by simp [hx])
    by_cases h2 : s₂ ≤ l.size
    · have h1 : s₁ ≤ l.size := le_trans h12 h2
      rw [walkBook_break l ls s₁ h1, walkBook_break l ls s₂ h2]
      dsimp only
      refine ⟨h12, ?_⟩
      have := mul_le_mul_of_nonneg_right hp (by linarith : (0:ℚ) ≤ s₂ - s₁)
      nlinarith
    · push_neg at h2
      by_cases h1 : s₁ ≤ l.size
      · rw [walkBook_break l ls s₁ h1, walkBook_deep l ls s₂ h2]
        obtain ⟨hf', hc'⟩ :=
          ih lb 0 (s₂ - l.size) hsz' hpr' (le_refl 0) (by linarith)
        rw [walkBook_zero ls hsz'] at hf' hc'
        dsimp only at hf' hc' ⊢
        constructor
        · linarith
        · have := mul_le_mul_of_nonneg_right hp
            (by linarith : (0:ℚ) ≤ l.size - s₁)
          nlinarith
      · push_neg at h1
        rw [walkBook_deep l ls s₁ h1, walkBook_deep l ls s₂ h2]
        obtain ⟨hf', hc'⟩ :=
          ih lb (s₁ - l.size) (s₂ - l.size) hsz' hpr' (by linarith) (by linarith)
        dsimp only
        constructor
        · linarith
        · nlinarith

lemma walkBook_ratio (L : List BookLevel) : ∀ (s₁ s₂ : ℚ),
    (∀ l ∈ L, 0 ≤ l.size) →
    L.Pairwise (fun a b => a.price ≤ b.price) →
    0 < s₁ → s₁ ≤ s₂ →
    (walkBook L s₁).1 * (walkBook L s₂).2 ≤
      (walkBook L s₂).1 * (walkBook L s₁).2 := by
  induction L with
  | nil =>
    intro s₁ s₂ _ _ _ _
    simp [walkBook]
  | cons l ls ih =>
    intro s₁ s₂ hsz hsort h0 h12
    have hz : 0 ≤ l.size := hsz l (by simp)
    have hsz' : ∀ x ∈ ls, 0 ≤ x.size := fun x hx => hsz x (by simp [hx])
    have hpr' : ∀ x ∈ ls, l.price ≤ x.price := (List.pairwise_cons.mp hsort).1
    have hsort' := (List.pairwise_cons.mp hsort).2
    by_cases h2 : s₂ ≤ l.size
    · have h1 : s₁ ≤ l.size := le_trans h12 h2
      rw [walkBook_break l ls s₁ h1, walkBook_break l ls s₂ h2]
      dsimp only
      nlinarith
    · push_neg at h2
      by_cases h1 : s₁ ≤ l.size
      · rw [walkBook_break l ls s₁ h1, walkBook_deep l ls s₂ h2]
        obtain ⟨hf', hc'⟩ :=
          walkBook_incr ls l.price 0 (s₂ - l.size) hsz' hpr' (le_refl 0)
            (by linarith)
        rw [walkBook_zero ls hsz'] at hf' hc'
        dsimp only at hf' hc' ⊢
        nlinarith
      · push_neg at h1
        rw [walkBook_deep l ls s₁ h1, walkBook_deep l ls s₂ h2]
        obtain ⟨hf', hc'⟩ :=
          walkBook_incr ls l.price (s₁ - l.size) (s₂ - l.size) hsz' hpr'
            (by linarith) (by linarith)
        have hIH := ih (s₁ - l.size) (s₂ - l.size) hsz' hsort'
          (by linarith) (by linarith)
        dsimp only at hIH hf' hc' ⊢
        nlinarith [mul_le_mul_of_nonneg_left hc' hz]

lemma walkBook_filled (L : List BookLevel) : ∀ s : ℚ,
    (∀ l ∈ L, 0 ≤ l.size) → 0 ≤ s →
    (walkBook L s).2 = min s ((L.map BookLevel.size).sum) := by
  induction L with
  | nil =>
    intro s _ h0
    simp [walkBook, min_eq_right h0]
  | cons l ls ih =>
    intro s hsz h0
    have hz : 0 ≤ l.size := hsz l (by simp)
    have hsz' : ∀ x ∈ ls, 0 ≤ x.size := fun x hx => hsz x (by simp [hx])
    have hsum : 0 ≤ (ls.map BookLevel.size).sum := by
      apply List.sum_nonneg
      intro x hx
      obtain ⟨y, hy, rfl⟩ := List.mem_map.mp hx
      exact hsz' y hy
    by_cases h : s ≤ l.size
    · rw [walkBook_break l ls s h]
      simp only [List.map_cons, List.sum_cons]
      rw [min_eq_left (by linarith)]
    · push_neg at h
      rw [walkBook_deep l ls s h]
      simp only [List.map_cons, List.sum_cons]
      rw [ih (s - l.size) hsz' (by linarith)]
      rcases le_total (s - l.size) ((ls.map BookLevel.size).sum) with hc | hc
      · rw [min_eq_left hc, min_eq_left (by linarith)]
        ring
      · rw [min_eq_right hc, min_eq_right (by linarith)]

/-- Price negation: maps a book side to one with negated prices (used to
derive the SELL-side monotonicity from the BUY-side one). -/
def negLevel (l : BookLevel) : BookLevel := ⟨-l.price, l.size⟩

lemma walkBook_neg (L : List BookLevel) : ∀ s : ℚ,
    walkBook (L.map negLevel) s = (-(walkBook L s).1, (walkBook L s).2) := by
  induction L with
  | nil =>
    intro s
    simp [walkBook]
  | cons l ls ih =>
    intro s
    simp only [List.map_cons]
    by_cases h : s ≤ l.size
    · have h' : s ≤ (negLevel l).size := h
      rw [walkBook_break _ _ _ h', walkBook_break _ _ _ h]
      simp [negLevel]
    · push_neg at h
      have h' : (negLevel l).size < s := h
      rw [walkBook_deep _ _ _ h', walkBook_deep _ _ _ h, ih]
      simp [negLevel]
      ring

/-- Claim C7 (amended): over strictly positive requested sizes
`0 < s₁ ≤ s₂`, for an order book whose level sizes are nonnegative,
`VWAP(book, side, s)` is monotone non-decreasing in `s` for `BUY` when the
asks are sorted by price ascending, and monotone non-increasing in `s` for
`SELL` when the bids are sorted by price descending.  (At `s = 0` the walk
fills nothing and `computeVWAP` returns `0`, which breaks monotonicity on
the SELL side — see the counterexample.) -/
theorem vwap_monotone (book : OrderBook) (s₁ s₂ : ℚ)
    (h0 : 0 < s₁) (h12 : s₁ ≤ s₂) :
    ((∀ l ∈ book.asks, 0 ≤ l.size) →
      book.asks.Pairwise (fun a b => a.price ≤ b.price) →
      computeVWAP book Side.BUY s₁ ≤ computeVWAP book Side.BUY s₂) ∧
    ((∀ l ∈ book.bids, 0 ≤ l.size) →
      book.bids.Pairwise (fun a b => b.price ≤ a.price) →
      computeVWAP book Side.SELL s₂ ≤ computeVWAP book Side.SELL s₁) := by
  constructor
  · intro hsz hsort
    unfold computeVWAP
    dsimp only
    by_cases hempty : book.asks = []
    · simp [hempty]
    · rw [if_neg hempty, if_neg hempty]
      have hfill₁ := walkBook_filled book.asks s₁ hsz (le_of_lt h0)
      have hfill₂ := walkBook_filled book.asks s₂ hsz (by linarith)
      have hT : 0 ≤ (book.asks.map BookLevel.size).sum := by
        apply List.sum_nonneg
        intro x hx
        obtain ⟨y, hy, rfl⟩ := List.mem_map.mp hx
        exact hsz y hy
      rcases eq_or_lt_of_le hT with hT0 | hTpos
      · have hf₁ : (walkBook book.asks s₁).2 = 0 := by
          rw [hfill₁, ← hT0]
          exact min_eq_right (le_of_lt h0)
        have hf₂ : (walkBook book.asks s₂).2 = 0 := by
          rw [hfill₂, ← hT0]
          exact min_eq_right (by linarith)
        rw [if_pos hf₁, if_pos hf₂]
      · have hf₁pos : 0 < (walkBook book.asks s₁).2 := by
          rw [hfill₁]
          exact lt_min h0 hTpos
        have hf₂pos : 0 < (walkBook book.asks s₂).2 := by
          rw [hfill₂]
          exact lt_min (by linarith) hTpos
        rw [if_neg (ne_of_gt hf₁pos), if_neg (ne_of_gt hf₂pos),
          div_le_div_iff₀ hf₁pos hf₂pos]
        exact walkBook_ratio book.asks s₁ s₂ hsz hsort h0 h12
  · intro hsz hsort
    unfold computeVWAP
    dsimp only
    by_cases hempty : book.bids = []
    · simp [hempty]
    · rw [if_neg hempty, if_neg hempty]
      have hfill₁ := walkBook_filled book.bids s₁ hsz (le_of_lt h0)
      have hfill₂ := walkBook_filled book.bids s₂ hsz (by linarith)
      have hT : 0 ≤ (book.bids.map BookLevel.size).sum := by
        apply List.sum_nonneg
        intro x hx
        obtain ⟨y, hy, rfl⟩ := List.mem_map.mp hx
        exact hsz y hy
      rcases eq_or_lt_of_le hT with hT0 | hTpos
      · have hf₁ : (walkBook book.bids s₁).2 = 0 := by
          rw [hfill₁, ← hT0]
          exact min_eq_right (le_of_lt h0)
        have hf₂ : (walkBook book.bids s₂).2 = 0 := by
          rw [hfill₂, ← hT0]
          exact min_eq_right (by linarith)
        rw [if_pos hf₁, if_pos hf₂]
      · have hf₁pos : 0 < (walkBook book.bids s₁).2 := by
          rw [hfill₁]
          exact lt_min h0 hTpos
        have hf₂pos : 0 < (walkBook book.bids s₂).2 := by
          rw [hfill₂]
          exact lt_min (by linarith) hTpos
        rw [if_neg (ne_of_gt hf₁pos), if_neg (ne_of_gt hf₂pos),
          div_le_div_iff₀ hf₂pos hf₁pos]
        have hszN : ∀ l ∈ book.bids.map negLevel, 0 ≤ l.size := by
          intro x hx
          obtain ⟨y, hy, rfl⟩ := List.mem_map.mp hx
          exact hsz y hy
        have hsortN : (book.bids.map negLevel).Pairwise
            (fun a b => a.price ≤ b.price) := by
          rw [List.pairwise_map]
          exact hsort.imp (fun h => by simpa [negLevel] using neg_le_neg h)
        have hratio := walkBook_ratio (book.bids.map negLevel) s₁ s₂ hszN
          hsortN h0 h12
        rw [walkBook_neg, walkBook_neg] at hratio
        dsimp only at hratio
        nlinarith

/-- Witness for claim C7's theorem at a concrete input: asks
`[(0.6, 10), (0.65, 100)]` sorted ascending, bids `[(0.5, 10)]`, sizes
`10 ≤ 20`. -/
theorem vwap_monotone_witness :
    ((∀ l ∈ (OrderBook.mk [⟨1/2, 10⟩] [⟨3/5, 10⟩, ⟨13/20, 100⟩]).asks, 0 ≤ l.size) →
      (OrderBook.mk [⟨1/2, 10⟩] [⟨3/5, 10⟩, ⟨13/20, 100⟩]).asks.Pairwise
        (fun a b => a.price ≤ b.price) →
      computeVWAP (OrderBook.mk [⟨1/2, 10⟩] [⟨3/5, 10⟩, ⟨13/20, 100⟩]) Side.BUY 10 ≤
        computeVWAP (OrderBook.mk [⟨1/2, 10⟩] [⟨3/5, 10⟩, ⟨13/20, 100⟩]) Side.BUY 20) ∧
    ((∀ l ∈ (OrderBook.mk [⟨1/2, 10⟩] [⟨3/5, 10⟩, ⟨13/20, 100⟩]).bids, 0 ≤ l.size) →
      (OrderBook.mk [⟨1/2, 10⟩] [⟨3/5, 10⟩, ⟨13/20, 100⟩]).bids.Pairwise
        (fun a b => b.price ≤ a.price) →
      computeVWAP (OrderBook.mk [⟨1/2, 10⟩] [⟨3/5, 10⟩, ⟨13/20, 100⟩]) Side.SELL 20 ≤
        computeVWAP (OrderBook.mk [⟨1/2, 10⟩] [⟨3/5, 10⟩, ⟨13/20, 100⟩]) Side.SELL 10) :=
  vwap_monotone (OrderBook.mk [⟨1/2, 10⟩] [⟨3/5, 10⟩, ⟨13/20, 100⟩]) 10 20
    (by norm_num) (by norm_num)

/-- Claim C7 counterexample: the claim as stated quantifies over every
requested size; at `s = 0` the SELL-side VWAP is `0` (nothing fills) while
at `s = 1` it is the best bid `0.5 > 0`, so VWAP is not monotone
non-increasing in `s` on a book with descending bids. -/
theorem vwap_monotone_cex :
    (OrderBook.mk [⟨1/2, 10⟩] []).bids.Pairwise (fun a b => b.price ≤ a.price) ∧
    (∀ l ∈ (OrderBook.mk [⟨1/2, 10⟩] []).bids, 0 ≤ l.size) ∧
    ((0:ℚ) ≤ 1) ∧
    ¬ (computeVWAP (OrderBook.mk [⟨1/2, 10⟩] []) Side.SELL 1 ≤
        computeVWAP (OrderBook.mk [⟨1/2, 10⟩] []) Side.SELL 0) := by
  refine ⟨by simp, by norm_num, by norm_num, ?_⟩
  have h0 : computeVWAP (OrderBook.mk [⟨1/2, 10⟩] []) Side.SELL 0 = 0 := by
    unfold computeVWAP
    dsimp only
    rw [if_neg (by simp), walkBook_break _ _ _ (by norm_num), if_pos rfl]
  have h1 : computeVWAP (OrderBook.mk [⟨1/2, 10⟩] []) Side.SELL 1 = 1/2 := by
    unfold computeVWAP
    dsimp only
    rw [if_neg (by simp), walkBook_break _ _ _ (by norm_num),
      if_neg (by norm_num)]
    norm_num
  rw [h0, h1]
  norm_num

/-- Claim C8 (amended): whenever the required side is non-empty and the
requested size satisfies `0 < s ≤` top-level size, `VWAP` equals the best
price of that side (`best_ask` for `BUY`, `best_bid` for `SELL`), and the
slippage rate is `0` provided that best price is nonzero (when it is zero,
`estimateSlippage` returns the maximal `1`).  (At `s = 0` nothing fills and
VWAP is `0`, not the best price — see the counterexample.) -/
theorem vwap_top_level (book : OrderBook) (s : ℚ) (hs : 0 < s) :
    (∀ pr z rest, book.asks = BookLevel.mk pr z :: rest → s ≤ z →
      computeVWAP book Side.BUY s = bestAsk book ∧
      (bestAsk book ≠ 0 → estimateSlippage book Side.BUY s = 0)) ∧
    (∀ pr z rest, book.bids = BookLevel.mk pr z :: rest → s ≤ z →
      computeVWAP book Side.SELL s = bestBid book ∧
      (bestBid book ≠ 0 → estimateSlippage book Side.SELL s = 0)) := by
  constructor
  · intro pr z rest hasks hsz
    have hbest : bestAsk book = pr := by
      unfold bestAsk
      rw [hasks]
    have hvwap : computeVWAP book Side.BUY s = pr := by
      unfold computeVWAP
      dsimp only
      rw [hasks, if_neg (by simp), walkBook_break _ _ _ hsz,
        if_neg (by dsimp only; exact ne_of_gt hs)]
      dsimp only
      exact mul_div_cancel_left₀ pr (ne_of_gt hs)
    refine ⟨by rw [hvwap, hbest], fun hb0 => ?_⟩
    unfold estimateSlippage
    dsimp only
    rw [if_neg hb0, hvwap, hbest, sub_self, abs_zero, zero_div]
  · intro pr z rest hbids hsz
    have hbest : bestBid book = pr := by
      unfold bestBid
      rw [hbids]
    have hvwap : computeVWAP book Side.SELL s = pr := by
      unfold computeVWAP
      dsimp only
      rw [hbids, if_neg (by simp), walkBook_break _ _ _ hsz,
        if_neg (by dsimp only; exact ne_of_gt hs)]
      dsimp only
      exact mul_div_cancel_left₀ pr (ne_of_gt hs)
    refine ⟨by rw [hvwap, hbest], fun hb0 => ?_⟩
    unfold estimateSlippage
    dsimp only
    rw [if_neg hb0, hvwap, hbest, sub_self, abs_zero, zero_div]

/-- Witness for claim C8's theorem at a concrete input: asks
`[(0.6, 10)]`, bids `[(0.5, 10)]`, requested size `5` at most the top-level
size `10`. -/
theorem vwap_top_level_witness :
    (∀ pr z rest, (OrderBook.mk [⟨1/2, 10⟩] [⟨3/5, 10⟩]).asks =
        BookLevel.mk pr z :: rest → (5:ℚ) ≤ z →
      computeVWAP (OrderBook.mk [⟨1/2, 10⟩] [⟨3/5, 10⟩]) Side.BUY 5 =
        bestAsk (OrderBook.mk [⟨1/2, 10⟩] [⟨3/5, 10⟩]) ∧
      (bestAsk (OrderBook.mk [⟨1/2, 10⟩] [⟨3/5, 10⟩]) ≠ 0 →
        estimateSlippage (OrderBook.mk [⟨1/2, 10⟩] [⟨3/5, 10⟩]) Side.BUY 5 = 0)) ∧
    (∀ pr z rest, (OrderBook.mk [⟨1/2, 10⟩] [⟨3/5, 10⟩]).bids =
        BookLevel.mk pr z :: rest → (5:ℚ) ≤ z →
      computeVWAP (OrderBook.mk [⟨1/2, 10⟩] [⟨3/5, 10⟩]) Side.SELL 5 =
        bestBid (OrderBook.mk [⟨1/2, 10⟩] [⟨3/5, 10⟩]) ∧
      (bestBid (OrderBook.mk [⟨1/2, 10⟩] [⟨3/5, 10⟩]) ≠ 0 →
        estimateSlippage (OrderBook.mk [⟨1/2, 10⟩] [⟨3/5, 10⟩]) Side.SELL 5 = 0)) :=
  vwap_top_level (OrderBook.mk [⟨1/2, 10⟩] [⟨3/5, 10⟩]) 5 (by norm_num)

/-- Claim C8 counterexample: the claim as stated covers every `s` at most
the top-level size; at `s = 0 ≤ 10` nothing fills, VWAP is `0` instead of
the best ask `0.6`, and the slippage rate is `1`, not `0`. -/
theorem vwap_top_level_cex :
    ((0:ℚ) ≤ 10) ∧
    computeVWAP (OrderBook.mk [] [⟨3/5, 10⟩]) Side.BUY 0 ≠
      bestAsk (OrderBook.mk [] [⟨3/5, 10⟩]) ∧
    estimateSlippage (OrderBook.mk [] [⟨3/5, 10⟩]) Side.BUY 0 ≠ 0 := by
  have hv : computeVWAP (OrderBook.mk [] [⟨3/5, 10⟩]) Side.BUY 0 = 0 := by
    unfold computeVWAP
    dsimp only
    rw [if_neg (by simp), walkBook_break _ _ _ (by norm_num), if_pos rfl]
  have hb : bestAsk (OrderBook.mk [] [⟨3/5, 10⟩]) = 3/5 := rfl
  refine ⟨by norm_num, by rw [hv, hb]; norm_num, ?_⟩
  unfold estimateSlippage
  dsimp only
  rw [hv, hb, if_neg (by norm_num)]
  norm_num

/-! ### The exact line search (claim C6) -/

lemma lsStep_nested {n : Nat} (p q v : Fin n → ℝ) (st : ℝ × ℝ)
    (h : st.1 ≤ st.2) :
    st.1 ≤ (lsStep p q v st).1 ∧ (lsStep p q v st).2 ≤ st.2 ∧
    (lsStep p q v st).1 ≤ (lsStep p q v st).2 ∧
    (lsStep p q v st).2 - (lsStep p q v st).1 = (2/3) * (st.2 - st.1) := by
  unfold lsStep
  dsimp only
  split
  · dsimp only
    refine ⟨le_refl _, by linarith, by linarith, by ring⟩
  · dsimp only
    refine ⟨by linarith, le_refl _, by linarith, by ring⟩

lemma lsIter_spec {n : Nat} (p q v : Fin n → ℝ) (k : Nat) :
    ((lsStep p q v)^[k] (0, 1)).1 ≤ ((lsStep p q v)^[k] (0, 1)).2 ∧
    0 ≤ ((lsStep p q v)^[k] (0, 1)).1 ∧
    ((lsStep p q v)^[k] (0, 1)).2 ≤ 1 ∧
    ((lsStep p q v)^[k] (0, 1)).2 - ((lsStep p q v)^[k] (0, 1)).1 =
      (2/3)^k := by
  induction k with
  | zero => norm_num
  | succ k ih =>
    obtain ⟨h1, h2, h3, h4⟩ := ih
    rw [Function.iterate_succ_apply']
    obtain ⟨a1, a2, a3, a4⟩ := lsStep_nested p q v _ h1
    refine ⟨a3, by linarith, by linarith, ?_⟩
    rw [a4, h4, pow_succ]
    ring

/-- Claim C6 (amended): the exact line search runs ternary bisection for
exactly 30 iterations on `[0,1]` (`lineSearch` is the midpoint of
`lsStep^[30] (0,1)`), each step producing an interval nested in the
previous one with width exactly `2/3` of it (so the final width is
`(2/3)³⁰`), and the returned midpoint lies in the final interval and hence
in `[0,1]`.  The descent guarantee `φ(γ*) ≤ φ(0)` of the original claim
does **not** hold in general — see the counterexample, where `φ` is
minimized at `γ = 0`. -/
theorem line_search_interval (n : Nat) (p q v : Fin n → ℝ) (k : Nat) :
    (((lsStep p q v)^[k] (0, 1)).1 ≤ ((lsStep p q v)^[k+1] (0, 1)).1 ∧
     ((lsStep p q v)^[k+1] (0, 1)).2 ≤ ((lsStep p q v)^[k] (0, 1)).2 ∧
     ((lsStep p q v)^[k+1] (0, 1)).1 ≤ ((lsStep p q v)^[k+1] (0, 1)).2) ∧
    ((lsStep p q v)^[k] (0, 1)).2 - ((lsStep p q v)^[k] (0, 1)).1 =
      (2/3)^k ∧
    lineSearch p q v =
      (((lsStep p q v)^[30] (0, 1)).1 + ((lsStep p q v)^[30] (0, 1)).2) / 2 ∧
    ((lsStep p q v)^[30] (0, 1)).1 ≤ lineSearch p q v ∧
    lineSearch p q v ≤ ((lsStep p q v)^[30] (0, 1)).2 ∧
    0 ≤ lineSearch p q v ∧ lineSearch p q v ≤ 1 := by
  obtain ⟨h1, h2, h3, h4⟩ := lsIter_spec p q v k
  obtain ⟨g1, g2, g3, g4⟩ := lsIter_spec p q v 30
  have hstep := lsStep_nested p q v ((lsStep p q v)^[k] (0, 1)) h1
  rw [← Function.iterate_succ_apply' (lsStep p q v) k (0, 1)] at hstep
  have hmid : lineSearch p q v =
      (((lsStep p q v)^[30] (0, 1)).1 + ((lsStep p q v)^[30] (0, 1)).2) / 2 :=
    rfl
  refine ⟨⟨hstep.1, hstep.2.1, hstep.2.2.1⟩, h4, hmid, ?_, ?_, ?_, ?_⟩ <;>
    rw [hmid] <;> linarith

/-- The concrete clamped price vector of the claim-C6 counterexample
(`p = 0.5`, one market). -/
noncomputable def lsP : Fin 1 → ℝ := fun _ => 1/2

/-- The counterexample's current iterate `q = 0.5`. -/
noncomputable def lsQ : Fin 1 → ℝ := fun _ => 1/2

/-- The counterexample's LP vertex `v = 1`. -/
noncomputable def lsV : Fin 1 → ℝ := fun _ => 1

lemma clampUnit_eq_self (x : ℝ) (h1 : EPS ≤ x) (h2 : x ≤ 1 - EPS) :
    clampUnit x = x := by
  unfold clampUnit
  rw [min_eq_right h2, max_eq_right h1]

lemma klGamma_eval (g : ℝ) (h0 : 0 ≤ g) (h1 : g ≤ 2/3) :
    klAtGamma lsP lsQ lsV g =
      Real.log (1/2) - (1/2) * Real.log (((1+g)/2) * ((1-g)/2)) := by
  unfold klAtGamma
  rw [Fin.sum_univ_one]
  have hmix : (1 - g) * lsQ 0 + g * lsV 0 = (1+g)/2 := by
    simp [lsQ, lsV]
    ring
  have hclamp : clampUnit ((1 - g) * lsQ 0 + g * lsV 0) = (1+g)/2 := by
    rw [hmix]
    refine clampUnit_eq_self _ ?_ ?_ <;> norm_num [EPS] <;> linarith
  rw [hclamp]
  have h1m : 1 - (1+g)/2 = (1-g)/2 := by ring
  rw [h1m]
  have hm1 : (0:ℝ) < (1+g)/2 := by linarith
  have hm2 : (0:ℝ) < (1-g)/2 := by linarith
  have hp : lsP 0 = 1/2 := rfl
  rw [hp]
  have h1p : (1:ℝ) - 1/2 = 1/2 := by norm_num
  rw [h1p, Real.log_div (by norm_num) (ne_of_gt hm1),
    Real.log_div (by norm_num) (ne_of_gt hm2),
    Real.log_mul (ne_of_gt hm1) (ne_of_gt hm2)]
  ring

lemma lsStep_left (st : ℝ × ℝ) (hlo : st.1 = 0) (hhi : 0 < st.2)
    (hhi1 : st.2 ≤ 1) :
    lsStep lsP lsQ lsV st = (0, 2/3 * st.2) := by
  unfold lsStep
  dsimp only
  rw [hlo]
  have e1 : (0:ℝ) + (st.2 - 0)/3 = st.2/3 := by ring
  have e2 : (0:ℝ) + 2 * (st.2 - 0)/3 = 2 * st.2/3 := by ring
  rw [e1, e2]
  have hcmp : klAtGamma lsP lsQ lsV (st.2/3) <
      klAtGamma lsP lsQ lsV (2 * st.2/3) := by
    rw [klGamma_eval _ (by linarith) (by linarith),
      klGamma_eval _ (by linarith) (by linarith)]
    have hA2pos : (0:ℝ) < ((1 + 2*st.2/3)/2) * ((1 - 2*st.2/3)/2) := by
      nlinarith
    have hlt : ((1 + 2*st.2/3)/2) * ((1 - 2*st.2/3)/2) <
        ((1 + st.2/3)/2) * ((1 - st.2/3)/2) := by
      nlinarith
    have := Real.log_lt_log hA2pos hlt
    linarith
  rw [if_pos hcmp]
  have e3 : 2 * st.2/3 = 2/3 * st.2 := by ring
  rw [e3]

lemma lsIter_cex (k : Nat) :
    (lsStep lsP lsQ lsV)^[k] (0, 1) = (0, (2/3)^k) := by
  induction k with
  | zero => norm_num
  | succ k ih =>
    rw [Function.iterate_succ_apply', ih,
      lsStep_left (0, (2/3)^k) rfl (by positivity)
        (pow_le_one₀ (by norm_num) (by norm_num))]
    have : (2:ℝ)/3 * (2/3)^k = (2/3)^(k+1) := by
      rw [pow_succ]
      ring
    rw [this]

/-- Claim C6 counterexample: with `p = q = 0.5` and `v = 1` (one market)
the line-search objective `φ(γ) = D_KL(p ‖ clamp((1-γ)q + γv))` is
minimized at `γ = 0` with `φ(0) = 0`, every bisection step discards the
right third, and the returned midpoint `γ* = (2/3)³⁰/2 > 0` has
`φ(γ*) > φ(0)` — the claimed descent `φ(γ*) ≤ φ(0)` is false. -/
theorem line_search_cex :
    klAtGamma lsP lsQ lsV 0 <
      klAtGamma lsP lsQ lsV (lineSearch lsP lsQ lsV) := by
  have hls : lineSearch lsP lsQ lsV = (2/3)^30 / 2 := by
    unfold lineSearch
    rw [lsIter_cex 30]
    dsimp only
    ring
  have h0 : klAtGamma lsP lsQ lsV 0 = 0 := by
    rw [klGamma_eval 0 (le_refl 0) (by norm_num)]
    have e : ((1:ℝ)+0)/2 * ((1-0)/2) = (1/2) * (1/2) := by ring
    rw [e, Real.log_mul (by norm_num) (by norm_num)]
    ring
  have hγpos : (0:ℝ) < (2/3)^30 / 2 := by positivity
  have hγle : ((2:ℝ)/3)^30 / 2 ≤ 2/3 := by
    have h : ((2:ℝ)/3)^30 ≤ 1 :=
      pow_le_one₀ (by norm_num : (0:ℝ) ≤ 2/3) (by norm_num : (2:ℝ)/3 ≤ 1)
    linarith
  rw [h0, hls, klGamma_eval _ (le_of_lt hγpos) hγle]
  have hm : ((1 + (2/3)^30/2)/2 : ℝ) * ((1 - (2/3)^30/2)/2) =
      (1 - ((2/3)^30/2)^2)/4 := by ring
  rw [hm]
  have hlt : ((1:ℝ) - ((2/3)^30/2)^2)/4 < 1/4 := by nlinarith
  have hpos : (0:ℝ) < (1 - ((2/3)^30/2)^2)/4 := by nlinarith
  have hlog := Real.log_lt_log hpos hlt
  have h14 : Real.log ((1:ℝ)/4) = 2 * Real.log (1/2) := by
    rw [show ((1:ℝ)/4) = (1/2) * (1/2) by norm_num,
      Real.log_mul (by norm_num) (by norm_num)]
    ring
  rw [h14] at hlog
  linarith

end Arbi
